import Mathlib

set_option maxHeartbeats 1000000

namespace Crystal

/-- A JavaScript number as it may appear in an access path: either finite
(modelled by an integer, since paths index objects and arrays) or one of the
three non-finite values `NaN`, `Infinity`, `-Infinity`. -/
inductive JSNum where
  | fin (i : Int)
  | nan
  | inf
  | negInf
deriving DecidableEq, Repr

/-- A raw path segment as the runtime may hold it.  The TypeScript type of a
path is `(string | number | symbol)[]`, but `constructDestructureFunction`
also guards against `null`/`undefined` segments and against any other runtime
value (boolean, object, function, ...), so the model includes those too.
Symbols are identified by reference, modelled by a numeric identity. -/
inductive PathItem where
  | str (s : String)
  | num (j : JSNum)
  | sym (id : Nat)
  | nullish
  | objlike
deriving DecidableEq, Repr

/-- Whether a path segment is a number that is not finite
(`typeof pathItem === "number" && !Number.isFinite(pathItem)`). -/
def isNonFiniteNum : PathItem → Bool
  | .num (.fin _) => false
  | .num _ => true
  | _ => false

/-- A JavaScript property key: after `ToPropertyKey` coercion every key is a
string or a symbol. -/
inductive JKey where
  | str (s : String)
  | sym (id : Nat)
deriving DecidableEq, Repr

/-- JavaScript `ToPropertyKey` applied to a path segment: numbers coerce to
their decimal string, `null` to the string `null`, other objects to a string
such as `[object Object]` (we model the representative plain object). -/
def PathItem.toKey : PathItem → JKey
  | .str s => .str s
  | .num (.fin i) => .str (toString i)
  | .num .nan => .str "NaN"
  | .num .inf => .str "Infinity"
  | .num .negInf => .str "-Infinity"
  | .sym id => .sym id
  | .nullish => .str "null"
  | .objlike => .str "[object Object]"

/-- A JSON-like JavaScript value: `undefined`, `null`, booleans, (integer)
numbers, strings, and objects given as association lists from property keys
to values (arrays are objects keyed by index strings). -/
inductive JValue where
  | undefined
  | null
  | bool (b : Bool)
  | num (i : Int)
  | str (s : String)
  | obj (fields : List (JKey × JValue))

mutual

/-- Structural equality of model values.  It models JavaScript strict
equality `===` on the JSON-like fragment: primitives compare by value; object
identity is approximated structurally (and the model's numbers are integers,
so there is no `NaN` case). -/
def jsStrictEq : JValue → JValue → Bool
  | .undefined, .undefined => true
  | .null, .null => true
  | .bool a, .bool b => a == b
  | .num a, .num b => a == b
  | .str a, .str b => a == b
  | .obj fs, .obj gs => jsStrictEqFields fs gs
  | _, _ => false

/-- Pointwise structural equality of object field lists. -/
def jsStrictEqFields : List (JKey × JValue) → List (JKey × JValue) → Bool
  | [], [] => true
  | (k1, v1) :: t1, (k2, v2) :: t2 =>
      k1 == k2 && jsStrictEq v1 v2 && jsStrictEqFields t1 t2
  | _, _ => false

end

/-- JavaScript loose `value == null`: true exactly for `null` and
`undefined`. -/
def isNullish : JValue → Bool
  | .undefined => true
  | .null => true
  | _ => false

/-- Strict test for the JavaScript `undefined` value, as in
`fallback !== undefined` (negated). -/
def isUndefined : JValue → Bool
  | .undefined => true
  | _ => false

/-- The JavaScript nullish-coalescing operator `a ?? b`. -/
def nullishCoalesce (a b : JValue) : JValue :=
  if isNullish a then b else a

/-- JavaScript property read `v[k]` on a non-nullish base: objects yield the
first binding of the key (or `undefined` when the key is missing); reads on
primitive bases yield `undefined` in this JSON-like model. -/
def getProp (v : JValue) (k : JKey) : JValue :=
  match v with
  | .obj fields =>
      match fields.find? (fun p => decide (p.1 = k)) with
      | some p => p.2
      | none => .undefined
  | _ => .undefined

/-- JavaScript optional-chained read `v?.[k]`: `undefined` on a nullish base,
otherwise a property read coerced through `ToPropertyKey`. -/
def optionalIndex (v : JValue) (p : PathItem) : JValue :=
  if isNullish v then .undefined else getProp v p.toKey

/-- The hand-optimized turbo closure for a path of length 1, from `access1`:
`value?.[key1] ?? fallback` when a fallback is given, else `value?.[key1]`. -/
def access1 (key1 : PathItem) (fallback : JValue) (value : JValue) : JValue :=
  if isUndefined fallback then optionalIndex value key1
  else nullishCoalesce (optionalIndex value key1) fallback

/-- The hand-optimized turbo closure for a path of length 2, from `access2`:
`value?.[key1]?.[key2] ?? fallback` when a fallback is given, else the bare
optional chain. -/
def access2 (key1 key2 : PathItem) (fallback : JValue) (value : JValue) :
    JValue :=
  if isUndefined fallback then optionalIndex (optionalIndex value key1) key2
  else nullishCoalesce (optionalIndex (optionalIndex value key1) key2) fallback

/-- The generated turbo-tier function `quicklyExtractValueAtPath`: the source
synthesizes `(extra, value) => (value?.[k1]?.[k2]...) ?? fallback`, with the
`?? fallback` part present only when `fallback !== undefined`. -/
def quicklyExtractValueAtPath (path : List PathItem) (fallback : JValue)
    (value : JValue) : JValue :=
  let r := path.foldl optionalIndex value
  if isUndefined fallback then r else nullishCoalesce r fallback

/-- The dispatch inside the turbo branch of `constructDestructureFunction`:
path length 1 and 2 use the hand-optimized closures, every other turbo path
uses the generated `quicklyExtractValueAtPath`. -/
def turboCompiled (path : List PathItem) (fallback : JValue) :
    JValue → JValue :=
  match path with
  | [k1] => access1 k1 fallback
  | [k1, k2] => access2 k1 k2 fallback
  | _ => quicklyExtractValueAtPath path fallback

/-- The loop body of `slowlyExtractValueAtPath`: walk the path while the
current value is not nullish (`current != null`), reading `current[pathItem]`
at each step; the walk stops early at (and returns) the first nullish value
it reaches. -/
def slowWalk : JValue → List PathItem → JValue
  | current, [] => current
  | current, p :: ps =>
      if isNullish current then current
      else slowWalk (getProp current p.toKey) ps

/-- The slow-tier generic walker `slowlyExtractValueAtPath`: walk the path
and then apply `current ?? fallback` (applied even when `fallback` is
`undefined`). -/
def slowlyExtractValueAtPath (path : List PathItem) (fallback : JValue)
    (value : JValue) : JValue :=
  nullishCoalesce (slowWalk value path) fallback

/-- One plain (non-optional) indexing step `current[p]` of the middle-tier
generated function: throws (modelled by `none`) when the base is nullish. -/
def strictIndex (v : JValue) (p : PathItem) : Option JValue :=
  if isNullish v then none else some (getProp v p.toKey)

/-- The function produced by the middle-tier generated factory
`function (p0, ..., pn) { return (_meta, value) => value[p0]...[pn]; }`:
plain indexing with no optional chaining and no use of the fallback, so it
throws (`none`) as soon as an intermediate value is nullish. -/
def middleExtract : List PathItem → JValue → Option JValue
  | [], value => some value
  | p :: ps, value =>
      if isNullish value then none
      else middleExtract ps (getProp value p.toKey)

/-- The middle-tier generated factory itself: the synthesized source depends
only on the path length `n`; the path segments are supplied as call-time
arguments (`fn(...path)`). -/
def middleFactory (n : Nat) (path : List PathItem) : JValue → Option JValue :=
  middleExtract (path.take n)

/-- The middle-tier cache signature
`(fallback !== undefined ? "f" : "n") + n`: it records only whether a
fallback is present and the path length. -/
def middleSignature (path : List PathItem) (fallback : JValue) : String :=
  (if isUndefined fallback then "n" else "f") ++ toString path.length

/-- The string a path segment contributes to `path.join("|")`, the turbo
cache signature (JavaScript `Array.prototype.join` stringifies elements,
rendering `null`/`undefined` as the empty string; symbols would throw, but
symbol segments never reach the turbo tier). -/
def joinItemString : PathItem → String
  | .str s => s
  | .num (.fin i) => toString i
  | .num .nan => "NaN"
  | .num .inf => "Infinity"
  | .num .negInf => "-Infinity"
  | .sym _ => ""
  | .nullish => ""
  | .objlike => "[object Object]"

/-- The turbo cache signature `path.join("|")`. -/
def turboSignature (path : List PathItem) : String :=
  String.intercalate "|" (path.map joinItemString)

/-- `String.prototype.includes` restricted to a single-character needle,
computed over the string's character list. -/
def jsIncludes (s : String) (c : Char) : Bool :=
  s.data.contains c

/-- One step of the tier-selection loop of `constructDestructureFunction`,
for the current mode `m` (0 slow, 1 middle, 2 turbo) and path segment.
Mirrors the source faithfully, including its test `t.includes("|")` on the
`typeof` result `t` (the constant string `"string"`) rather than on the
segment itself, so that test is always false.  `none` models the thrown
`Invalid path item` error. -/
def pathItemMode (m : Nat) : PathItem → Option Nat
  | .sym _ => some (if m = 2 then 1 else m)
  | .str _ => some (if jsIncludes "string" '|' && m = 2 then 1 else m)
  | .num (.fin _) => some m
  | .num .nan => some 0
  | .num .inf => some 0
  | .num .negInf => some 0
  | .nullish => some 0
  | .objlike => none

/-- The full tier selection of `constructDestructureFunction`: the initial
mode is 0 when the path is longer than 50, 1 when longer than 5, else 2, and
the loop then downgrades per segment; `none` models the thrown construction
error. -/
def destructureMode (path : List PathItem) : Option Nat :=
  let n := path.length
  let m0 : Nat := if n > 50 then 0 else if n > 5 then 1 else 2
  path.foldl (fun acc p => acc.bind (fun m => pathItemMode m p)) (some m0)

/-- The accessor chosen by `constructDestructureFunction` for a path and
fallback, by tier. -/
inductive CompiledAccessor where
  | slow (path : List PathItem) (fallback : JValue)
  | middle (path : List PathItem) (fallback : JValue)
  | turbo (path : List PathItem) (fallback : JValue)

/-- `constructDestructureFunction` as a total description: `none` is the
thrown construction error, otherwise the tier the accessor is built in. -/
def constructDestructureFunction (path : List PathItem) (fallback : JValue) :
    Option CompiledAccessor :=
  (destructureMode path).map (fun m =>
    match m with
    | 0 => .slow path fallback
    | 1 => .middle path fallback
    | _ => .turbo path fallback)

/-- Running a compiled accessor on a value.  Slow and turbo accessors are
total; the middle-tier accessor can throw (`none`) and ignores its recorded
fallback, exactly as the generated source does. -/
def runAccessor : CompiledAccessor → JValue → Option JValue
  | .slow path fallback, v => some (slowlyExtractValueAtPath path fallback v)
  | .middle path _fallback, v => middleExtract path v
  | .turbo path fallback, v => some (turboCompiled path fallback v)

/-- The extraction a path and fallback actually perform at run time: the
accessor chosen by `constructDestructureFunction` for this path's tier, run
on the value.  `none` models a thrown error — the construction error for an
invalid segment, or the middle tier's runtime `TypeError` on a nullish
intermediate. -/
def compiledExtract (path : List PathItem) (fallback : JValue)
    (v : JValue) : Option JValue :=
  match constructDestructureFunction path fallback with
  | some acc => runAccessor acc v
  | none => none

/-- A step of the plan graph, as far as the access machinery observes it: an
`AccessStep` holds its single dependency, its path and its optional fallback
(`JValue.undefined` when none was given); every other step kind is a leaf
identified by its id. -/
inductive Step where
  | access (dep : Step) (path : List PathItem) (fallback : JValue)
  | base (id : Nat)

/-- `AccessStep.optimize`: when the sole dependency is itself an `AccessStep`
whose fallback is `undefined`, return a single `AccessStep` on the
grandparent with the concatenated path (`access($dep.getDep(0),
[...$dep.path, ...this.path], this.fallback)`); otherwise return the step
itself (the source then compiles the accessor, which mutates no graph
structure). -/
def optimize : Step → Step
  | .access (.access gdep ppath pfb) path fb =>
      if isUndefined pfb then .access gdep (ppath ++ path) fb
      else .access (.access gdep ppath pfb) path fb
  | s => s

/-- `AccessStep.get`: only a string key is accepted (anything else throws,
modelled by `none`); the new step depends on this step's own dependency
(`this.getDep(0)`), appends the key to the path, and passes no fallback. -/
def Step.get : Step → PathItem → Option Step
  | .access dep path _fb, .str s =>
      some (.access dep (path ++ [.str s]) .undefined)
  | _, _ => none

/-- `AccessStep.at`: only a number index is accepted (`typeof index !==
"number"` throws, modelled by `none`; non-finite numbers are numbers and
pass); the new step depends on this step's own dependency, appends the index
to the path, and passes no fallback. -/
def Step.atIndex : Step → PathItem → Option Step
  | .access dep path _fb, .num j =>
      some (.access dep (path ++ [.num j]) .undefined)
  | _, _ => none

/-- JSON string escaping for the characters our model can produce. -/
def jsonEscapeChar (c : Char) : String :=
  if c = '"' then "\\\"" else if c = '\\' then "\\\\" else String.singleton c

/-- JSON escaping of a whole string. -/
def jsonEscape (s : String) : String :=
  String.join (s.toList.map jsonEscapeChar)

/-- The JSON rendering of one path segment under `JSON.stringify`: strings
are quoted, finite numbers are decimal, non-finite numbers, symbols and
nullish segments all render as `null` inside an array, and the
representative plain object renders as an empty object. -/
def jsonItemString : PathItem → String
  | .str s => "\"" ++ jsonEscape s ++ "\""
  | .num (.fin i) => toString i
  | .num _ => "null"
  | .sym _ => "null"
  | .nullish => "null"
  | .objlike => "\x7b\x7d"

/-- `JSON.stringify(path)` for a path array. -/
def jsonStringifyPath (path : List PathItem) : String :=
  "[" ++ String.intercalate "," (path.map jsonItemString) ++ "]"

/-- `AccessStep.deduplicate`: filter the peers keeping those whose fallback
is strictly equal to this step's fallback and whose path has the same
`JSON.stringify` image as this step's path; the dependency is not consulted.
On a non-access step the method does not exist; the model returns `[]`. -/
def deduplicate : Step → List Step → List Step
  | .access _dep path fb, peers =>
      peers.filter (fun p =>
        match p with
        | .access _ ppath pfb =>
            jsStrictEq pfb fb &&
              jsonStringifyPath ppath == jsonStringifyPath path
        | _ => false)
  | _, _ => []

/-- Whether a step is an `AccessStep` with no fallback, the guard of the
fusion rewrite. -/
def isAccessNoFallback : Step → Bool
  | .access _ _ fb => isUndefined fb
  | _ => false

/-- The shared state of one signature-keyed compilation cache
(`makeDestructureCache`/`makingDestructureCache` and their turbo hyper-cache
counterparts follow the same discipline).  Compiled functions and pending
callbacks are identified by numeric ids; `started` logs every compilation
that was triggered and `delivered` logs every callback invocation with the
function it received. -/
structure CoalesceState where
  cache : List (String × Nat)
  making : List (String × List Nat)
  started : List String
  delivered : List (Nat × Nat)

/-- Association-list lookup keyed by signature. -/
def alookup {α : Type} : List (String × α) → String → Option α
  | [], _ => none
  | (k, v) :: t, sig => if k = sig then some v else alookup t sig

/-- Association-list update in place (append when absent). -/
def aset {α : Type} : List (String × α) → String → α → List (String × α)
  | [], sig, v => [(sig, v)]
  | (k, w) :: t, sig, v =>
      if k = sig then (sig, v) :: t else (k, w) :: aset t sig v

/-- Association-list deletion of a signature. -/
def aerase {α : Type} (l : List (String × α)) (sig : String) :
    List (String × α) :=
  l.filter (fun p => !(p.1 == sig))

/-- One request to the cache, following `constructDestructureFunction`: a
cached signature delivers immediately; a signature currently being compiled
gets the callback appended to its pending list; otherwise a fresh pending
list is created and a compilation is started. -/
def request (sig : String) (cb : Nat) (s : CoalesceState) : CoalesceState :=
  match alookup s.cache sig with
  | some fn => { s with delivered := s.delivered ++ [(cb, fn)] }
  | none =>
      match alookup s.making sig with
      | some cbs => { s with making := aset s.making sig (cbs ++ [cb]) }
      | none =>
          { s with making := aset s.making sig [cb],
                   started := s.started ++ [sig] }

/-- Completion of the (single) compilation for a signature, following the
`done` continuation: cache the function, drop the pending list, and invoke
every pending callback with the compiled function. -/
def complete (sig : String) (fn : Nat) (s : CoalesceState) : CoalesceState :=
  match alookup s.making sig with
  | some cbs =>
      { s with cache := aset s.cache sig fn,
               making := aerase s.making sig,
               delivered := s.delivered ++ cbs.map (fun cb => (cb, fn)) }
  | none => s

/-- A whole sequence of further requests for one signature, in order. -/
def requestAll (sig : String) (cbs : List Nat) (s : CoalesceState) :
    CoalesceState :=
  cbs.foldl (fun st cb => request sig cb st) s

/-- A step of a serialized plan (`GrafastPlanStepJSONv1`) as far as the
mermaid traversal consults it: its id and its dependency ids. -/
structure StepJ where
  id : Nat
  dependencyIds : List Nat
deriving DecidableEq, Repr

/-- A bucket of a serialized plan (`GrafastPlanBucketJSONv1`): id, its own
steps, and its child buckets. -/
inductive BucketJ where
  | node (id : Nat) (steps : List StepJ) (children : List BucketJ)

/-- The comparator of `planToMermaid`'s per-bucket sort,
`(a, z) => z.dependencyIds.length - a.dependencyIds.length`: steps with more
dependencies first. -/
def stepOrder (a z : StepJ) : Prop :=
  z.dependencyIds.length ≤ a.dependencyIds.length

instance : DecidableRel stepOrder := fun _ _ => Nat.decLe _ _

/-- The sorted copy `[...bucket.steps].sort(...)` (a stable sort; only the
underlying permutation matters to registration). -/
def sortSteps (steps : List StepJ) : List StepJ :=
  steps.insertionSort stepOrder

/-- The step ids of one bucket in the order the traversal visits them. -/
def sortedStepIds (steps : List StepJ) : List Nat :=
  (sortSteps steps).map (fun s => s.id)

/-- The raw step-id set of a bucket (unsorted). -/
def bucketStepIds : BucketJ → List Nat
  | .node _ steps _ => steps.map (fun s => s.id)

/-- Registration of one step id into `stepById`: if the id is already
registered the traversal throws (`Step ... duplicated in plan?!`), modelled
by `none`; otherwise the id is appended to the registration order. -/
def registerAll : List Nat → List Nat → Option (List Nat)
  | acc, [] => some acc
  | acc, id :: ids =>
      if id ∈ acc then none else registerAll (acc ++ [id]) ids

mutual

/-- The recursive `extractSteps` traversal of `planToMermaid`: register this
bucket's steps (sorted by dependency count) and then recurse into the
children; `none` models the thrown duplicate-step error. -/
def extractSteps : Option (List Nat) → BucketJ → Option (List Nat)
  | none, _ => none
  | some acc, .node _ steps children =>
      extractStepsList (registerAll acc (sortedStepIds steps)) children

/-- The traversal over a list of child buckets, in order. -/
def extractStepsList : Option (List Nat) → List BucketJ → Option (List Nat)
  | acc, [] => acc
  | acc, c :: cs => extractStepsList (extractSteps acc c) cs

end

/-- The whole-plan traversal, starting from an empty `stepById` registry. -/
def extractPlan (t : BucketJ) : Option (List Nat) :=
  extractSteps (some []) t

mutual

/-- All step ids of the bucket tree, in traversal order. -/
def allIdsB : BucketJ → List Nat
  | .node _ steps children => sortedStepIds steps ++ allIdsL children

/-- All step ids of a forest of buckets, in traversal order. -/
def allIdsL : List BucketJ → List Nat
  | [] => []
  | c :: cs => allIdsB c ++ allIdsL cs

end

mutual

/-- The buckets of the tree, in preorder. -/
def bucketsB : BucketJ → List BucketJ
  | .node i s c => .node i s c :: bucketsL c

/-- The buckets of a forest, in preorder. -/
def bucketsL : List BucketJ → List BucketJ
  | [] => []
  | c :: cs => bucketsB c ++ bucketsL cs

end

/-- The step ids one bucket contributes to the traversal, in visiting
order. -/
def bucketSortedIds : BucketJ → List Nat
  | .node _ steps _ => sortedStepIds steps

theorem slowWalk_nullish {v : JValue} (h : isNullish v = true) :
    ∀ p : List PathItem, slowWalk v p = v := by
  intro p
  cases p with
  | nil => rfl
  | cons a l => simp [slowWalk, h]

theorem slowWalk_append (p q : List PathItem) :
    ∀ v, slowWalk v (p ++ q) = slowWalk (slowWalk v p) q := by
  induction p with
  | nil => intro v; rfl
  | cons a l ih =>
      intro v
      by_cases h : isNullish v = true
      · simp [slowWalk, h, slowWalk_nullish h]
      · simp only [Bool.not_eq_true] at h
        simp [slowWalk, h, ih]

theorem foldl_optionalIndex_nullish {v : JValue} (h : isNullish v = true) :
    ∀ p : List PathItem, List.foldl optionalIndex v p = v ∨
      List.foldl optionalIndex v p = JValue.undefined := by
  intro p
  cases p with
  | nil => exact Or.inl rfl
  | cons a l =>
      right
      have e : optionalIndex v a = JValue.undefined := by simp [optionalIndex, h]
      rw [List.foldl_cons, e]
      clear e h
      induction l with
      | nil => rfl
      | cons b m ih => simpa [optionalIndex, isNullish] using ih

theorem foldl_optionalIndex_rel (p : List PathItem) :
    ∀ v, List.foldl optionalIndex v p = slowWalk v p ∨
      (isNullish (List.foldl optionalIndex v p) = true ∧
        isNullish (slowWalk v p) = true) := by
  induction p with
  | nil => intro v; exact Or.inl rfl
  | cons a l ih =>
      intro v
      by_cases h : isNullish v = true
      · right
        constructor
        · rcases foldl_optionalIndex_nullish h (a :: l) with h1 | h1 <;> rw [h1]
          · exact h
          · rfl
        · rw [slowWalk_nullish h]; exact h
      · simp only [Bool.not_eq_true] at h
        have e1 : optionalIndex v a = getProp v a.toKey := by
          simp [optionalIndex, h]
        have e2 : slowWalk v (a :: l) = slowWalk (getProp v a.toKey) l := by
          simp [slowWalk, h]
        rw [List.foldl_cons, e1, e2]
        exact ih (getProp v a.toKey)

theorem turboCompiled_eq_quickly (p : List PathItem) (fb : JValue)
    (v : JValue) :
    turboCompiled p fb v = quicklyExtractValueAtPath p fb v := by
  match p with
  | [] => rfl
  | [k1] => simp [turboCompiled, access1, quicklyExtractValueAtPath]
  | [k1, k2] => simp [turboCompiled, access2, quicklyExtractValueAtPath]
  | k1 :: k2 :: k3 :: rest => rfl

theorem nullishCoalesce_of_nullish {a : JValue} (h : isNullish a = true)
    (b : JValue) : nullishCoalesce a b = b := by
  simp [nullishCoalesce, h]

theorem nullishCoalesce_of_not_nullish {a : JValue} (h : isNullish a = false)
    (b : JValue) : nullishCoalesce a b = a := by
  simp [nullishCoalesce, h]

theorem isUndefined_iff {fb : JValue} :
    isUndefined fb = true ↔ fb = JValue.undefined := by
  cases fb <;> simp [isUndefined]

theorem quickly_eq_slow_of_fallback (path : List PathItem) {fb : JValue}
    (hfb : isUndefined fb = false) (v : JValue) :
    quicklyExtractValueAtPath path fb v = slowlyExtractValueAtPath path fb v := by
  simp only [quicklyExtractValueAtPath, slowlyExtractValueAtPath, hfb,
    Bool.false_eq_true, if_false]
  rcases foldl_optionalIndex_rel path v with hrel | ⟨h1, h2⟩
  · rw [hrel]
  · rw [nullishCoalesce_of_nullish h1, nullishCoalesce_of_nullish h2]

theorem quickly_slow_nullish_agree (path : List PathItem) (fb v : JValue) :
    quicklyExtractValueAtPath path fb v = slowlyExtractValueAtPath path fb v ∨
      (isNullish (quicklyExtractValueAtPath path fb v) = true ∧
       isNullish (slowlyExtractValueAtPath path fb v) = true) := by
  cases hfb : isUndefined fb
  · exact Or.inl (quickly_eq_slow_of_fallback path hfb v)
  · have hfb' : fb = JValue.undefined := isUndefined_iff.mp hfb
    subst hfb'
    simp only [quicklyExtractValueAtPath, slowlyExtractValueAtPath,
      isUndefined, if_true]
    rcases foldl_optionalIndex_rel path v with hrel | ⟨h1, h2⟩
    · by_cases hn : isNullish (slowWalk v path) = true
      · right
        refine ⟨by rw [hrel]; exact hn, ?_⟩
        rw [nullishCoalesce_of_nullish hn]
        rfl
      · simp only [Bool.not_eq_true] at hn
        left
        rw [hrel, nullishCoalesce_of_not_nullish hn]
    · right
      refine ⟨h1, ?_⟩
      rw [nullishCoalesce_of_nullish h2]
      rfl

theorem nullish_rel_symm {a b : JValue}
    (h : a = b ∨ (isNullish a = true ∧ isNullish b = true)) :
    b = a ∨ (isNullish b = true ∧ isNullish a = true) := by
  rcases h with rfl | ⟨h1, h2⟩
  · exact Or.inl rfl
  · exact Or.inr ⟨h2, h1⟩

theorem nullish_rel_trans {a b c : JValue}
    (h1 : a = b ∨ (isNullish a = true ∧ isNullish b = true))
    (h2 : b = c ∨ (isNullish b = true ∧ isNullish c = true)) :
    a = c ∨ (isNullish a = true ∧ isNullish c = true) := by
  rcases h1 with rfl | ⟨ha, hb⟩
  · exact h2
  · rcases h2 with rfl | ⟨hb2, hc⟩
    · exact Or.inr ⟨ha, hb⟩
    · exact Or.inr ⟨ha, hc⟩

theorem nullco_undefined_rel (x : JValue) :
    nullishCoalesce x JValue.undefined = x ∨
      (isNullish (nullishCoalesce x JValue.undefined) = true ∧
        isNullish x = true) := by
  by_cases h : isNullish x = true
  · right
    rw [nullishCoalesce_of_nullish h]
    exact ⟨rfl, h⟩
  · left
    exact nullishCoalesce_of_not_nullish (by simpa using h) _

theorem nullco_eq_of_rel {a b : JValue} (fbv : JValue)
    (h : a = b ∨ (isNullish a = true ∧ isNullish b = true)) :
    nullishCoalesce a fbv = nullishCoalesce b fbv := by
  rcases h with rfl | ⟨h1, h2⟩
  · rfl
  · rw [nullishCoalesce_of_nullish h1, nullishCoalesce_of_nullish h2]

theorem slowWalk_rel_congr {w w' : JValue} (p : List PathItem)
    (h : w = w' ∨ (isNullish w = true ∧ isNullish w' = true)) :
    slowWalk w p = slowWalk w' p ∨
      (isNullish (slowWalk w p) = true ∧
        isNullish (slowWalk w' p) = true) := by
  rcases h with rfl | ⟨h1, h2⟩
  · exact Or.inl rfl
  · right
    rw [slowWalk_nullish h1, slowWalk_nullish h2]
    exact ⟨h1, h2⟩

theorem foldl_rel_congr {w w' : JValue} (p : List PathItem)
    (h : w = w' ∨ (isNullish w = true ∧ isNullish w' = true)) :
    List.foldl optionalIndex w p = List.foldl optionalIndex w' p ∨
      (isNullish (List.foldl optionalIndex w p) = true ∧
        isNullish (List.foldl optionalIndex w' p) = true) := by
  rcases h with rfl | ⟨h1, h2⟩
  · exact Or.inl rfl
  · right
    constructor
    · rcases foldl_optionalIndex_nullish h1 p with e | e <;> rw [e]
      · exact h1
      · rfl
    · rcases foldl_optionalIndex_nullish h2 p with e | e <;> rw [e]
      · exact h2
      · rfl

theorem quickly_undefined_eq_foldl (p : List PathItem) (v : JValue) :
    quicklyExtractValueAtPath p JValue.undefined v
      = List.foldl optionalIndex v p := by
  simp [quicklyExtractValueAtPath, isUndefined]

theorem quickly_fallback_eq_nullco (p : List PathItem) {fbv : JValue}
    (h : isUndefined fbv = false) (v : JValue) :
    quicklyExtractValueAtPath p fbv v
      = nullishCoalesce (List.foldl optionalIndex v p) fbv := by
  simp [quicklyExtractValueAtPath, h]

theorem e1_rel_slowWalk (p1 : List PathItem) (v : JValue) {e1 : JValue}
    (he1 : e1 = slowlyExtractValueAtPath p1 JValue.undefined v
         ∨ e1 = turboCompiled p1 JValue.undefined v) :
    e1 = slowWalk v p1 ∨
      (isNullish e1 = true ∧ isNullish (slowWalk v p1) = true) := by
  rcases he1 with rfl | rfl
  · unfold slowlyExtractValueAtPath
    exact nullco_undefined_rel (slowWalk v p1)
  · rw [turboCompiled_eq_quickly, quickly_undefined_eq_foldl]
    exact foldl_optionalIndex_rel p1 v

theorem walk_chain_rel (p1 p2 : List PathItem) (v : JValue) {e1 : JValue}
    (h : e1 = slowWalk v p1 ∨
      (isNullish e1 = true ∧ isNullish (slowWalk v p1) = true))
    {x y : JValue}
    (hx : x = slowWalk e1 p2 ∨ x = List.foldl optionalIndex e1 p2)
    (hy : y = slowWalk v (p1 ++ p2)
        ∨ y = List.foldl optionalIndex v (p1 ++ p2)) :
    x = y ∨ (isNullish x = true ∧ isNullish y = true) := by
  have hS1F1 : slowWalk v p1 = List.foldl optionalIndex v p1 ∨
      (isNullish (slowWalk v p1) = true ∧
        isNullish (List.foldl optionalIndex v p1) = true) :=
    nullish_rel_symm (foldl_optionalIndex_rel p1 v)
  have he1F1 : e1 = List.foldl optionalIndex v p1 ∨
      (isNullish e1 = true ∧
        isNullish (List.foldl optionalIndex v p1) = true) :=
    nullish_rel_trans h hS1F1
  rcases hx with rfl | rfl <;> rcases hy with rfl | rfl
  · rw [slowWalk_append]
    exact slowWalk_rel_congr p2 h
  · rw [List.foldl_append]
    refine nullish_rel_trans (slowWalk_rel_congr p2 he1F1) ?_
    exact nullish_rel_symm
      (foldl_optionalIndex_rel p2 (List.foldl optionalIndex v p1))
  · rw [slowWalk_append]
    refine nullish_rel_trans (foldl_optionalIndex_rel p2 e1) ?_
    exact slowWalk_rel_congr p2 h
  · rw [List.foldl_append]
    exact foldl_rel_congr p2 he1F1

theorem extract_fuse_general (p1 p2 : List PathItem) (fb v : JValue)
    {e1 e2 ef : JValue}
    (he1 : e1 = slowlyExtractValueAtPath p1 JValue.undefined v
         ∨ e1 = turboCompiled p1 JValue.undefined v)
    (he2 : e2 = slowlyExtractValueAtPath p2 fb e1
         ∨ e2 = turboCompiled p2 fb e1)
    (hef : ef = slowlyExtractValueAtPath (p1 ++ p2) fb v
         ∨ ef = turboCompiled (p1 ++ p2) fb v) :
    (e2 = ef ∨ (isNullish e2 = true ∧ isNullish ef = true))
    ∧ (isUndefined fb = false → e2 = ef) := by
  have hrel1 := e1_rel_slowWalk p1 v he1
  cases hfb : isUndefined fb
  · have he2' : e2 = nullishCoalesce (slowWalk e1 p2) fb
        ∨ e2 = nullishCoalesce (List.foldl optionalIndex e1 p2) fb := by
      rcases he2 with rfl | rfl
      · exact Or.inl rfl
      · rw [turboCompiled_eq_quickly, quickly_fallback_eq_nullco p2 hfb]
        exact Or.inr rfl
    have hef' : ef = nullishCoalesce (slowWalk v (p1 ++ p2)) fb
        ∨ ef = nullishCoalesce (List.foldl optionalIndex v (p1 ++ p2)) fb := by
      rcases hef with rfl | rfl
      · exact Or.inl rfl
      · rw [turboCompiled_eq_quickly, quickly_fallback_eq_nullco _ hfb]
        exact Or.inr rfl
    have heq : e2 = ef := by
      rcases he2' with rfl | rfl <;> rcases hef' with rfl | rfl
      · exact nullco_eq_of_rel fb (walk_chain_rel p1 p2 v hrel1
          (Or.inl rfl) (Or.inl rfl))
      · exact nullco_eq_of_rel fb (walk_chain_rel p1 p2 v hrel1
          (Or.inl rfl) (Or.inr rfl))
      · exact nullco_eq_of_rel fb (walk_chain_rel p1 p2 v hrel1
          (Or.inr rfl) (Or.inl rfl))
      · exact nullco_eq_of_rel fb (walk_chain_rel p1 p2 v hrel1
          (Or.inr rfl) (Or.inr rfl))
    exact ⟨Or.inl heq, fun _ => heq⟩
  · have hfb' : fb = JValue.undefined := isUndefined_iff.mp hfb
    subst hfb'
    have he2' : ∃ x, (x = slowWalk e1 p2 ∨ x = List.foldl optionalIndex e1 p2)
        ∧ (e2 = x ∨ (isNullish e2 = true ∧ isNullish x = true)) := by
      rcases he2 with rfl | rfl
      · exact ⟨slowWalk e1 p2, Or.inl rfl,
          nullco_undefined_rel (slowWalk e1 p2)⟩
      · refine ⟨List.foldl optionalIndex e1 p2, Or.inr rfl, ?_⟩
        rw [turboCompiled_eq_quickly, quickly_undefined_eq_foldl]
        exact Or.inl rfl
    have hef' : ∃ y, (y = slowWalk v (p1 ++ p2)
          ∨ y = List.foldl optionalIndex v (p1 ++ p2))
        ∧ (ef = y ∨ (isNullish ef = true ∧ isNullish y = true)) := by
      rcases hef with rfl | rfl
      · exact ⟨slowWalk v (p1 ++ p2), Or.inl rfl,
          nullco_undefined_rel (slowWalk v (p1 ++ p2))⟩
      · refine ⟨List.foldl optionalIndex v (p1 ++ p2), Or.inr rfl, ?_⟩
        rw [turboCompiled_eq_quickly, quickly_undefined_eq_foldl]
        exact Or.inl rfl
    rcases he2' with ⟨x, hx, hex⟩
    rcases hef' with ⟨y, hy, hey⟩
    have hxy := walk_chain_rel p1 p2 v hrel1 hx hy
    refine ⟨nullish_rel_trans (nullish_rel_trans hex hxy)
      (nullish_rel_symm hey), ?_⟩
    intro hcontra
    simp [isUndefined] at hcontra

theorem compiledExtract_slow {p : List PathItem} {fbv v : JValue}
    (h : destructureMode p = some 0) :
    compiledExtract p fbv v = some (slowlyExtractValueAtPath p fbv v) := by
  simp [compiledExtract, constructDestructureFunction, h, runAccessor]

theorem compiledExtract_turbo {p : List PathItem} {fbv v : JValue}
    (h : destructureMode p = some 2) :
    compiledExtract p fbv v = some (turboCompiled p fbv v) := by
  simp [compiledExtract, constructDestructureFunction, h, runAccessor]

theorem fusion_semantics (p1 p2 : List PathItem) (fb v : JValue)
    (h1 : destructureMode p1 = some 0 ∨ destructureMode p1 = some 2)
    (h2 : destructureMode p2 = some 0 ∨ destructureMode p2 = some 2)
    (hf : destructureMode (p1 ++ p2) = some 0
        ∨ destructureMode (p1 ++ p2) = some 2) :
    ∃ a b,
      (compiledExtract p1 JValue.undefined v).bind (compiledExtract p2 fb)
        = some a
      ∧ compiledExtract (p1 ++ p2) fb v = some b
      ∧ (a = b ∨ (isNullish a = true ∧ isNullish b = true))
      ∧ (isUndefined fb = false → a = b) := by
  have step1 : ∃ e1, compiledExtract p1 JValue.undefined v = some e1
      ∧ (e1 = slowlyExtractValueAtPath p1 JValue.undefined v
        ∨ e1 = turboCompiled p1 JValue.undefined v) := by
    rcases h1 with h1 | h1
    · exact ⟨_, compiledExtract_slow h1, Or.inl rfl⟩
    · exact ⟨_, compiledExtract_turbo h1, Or.inr rfl⟩
  rcases step1 with ⟨e1, he1eq, he1⟩
  have step2 : ∃ e2, compiledExtract p2 fb e1 = some e2
      ∧ (e2 = slowlyExtractValueAtPath p2 fb e1
        ∨ e2 = turboCompiled p2 fb e1) := by
    rcases h2 with h2 | h2
    · exact ⟨_, compiledExtract_slow h2, Or.inl rfl⟩
    · exact ⟨_, compiledExtract_turbo h2, Or.inr rfl⟩
  rcases step2 with ⟨e2, he2eq, he2⟩
  have stepf : ∃ ef, compiledExtract (p1 ++ p2) fb v = some ef
      ∧ (ef = slowlyExtractValueAtPath (p1 ++ p2) fb v
        ∨ ef = turboCompiled (p1 ++ p2) fb v) := by
    rcases hf with hf | hf
    · exact ⟨_, compiledExtract_slow hf, Or.inl rfl⟩
    · exact ⟨_, compiledExtract_turbo hf, Or.inr rfl⟩
  rcases stepf with ⟨ef, hefeq, hef⟩
  have hmain := extract_fuse_general p1 p2 fb v he1 he2 hef
  refine ⟨e2, ef, ?_, hefeq, hmain.1, hmain.2⟩
  rw [he1eq]
  rw [show (some e1).bind (compiledExtract p2 fb)
      = compiledExtract p2 fb e1 from rfl]
  exact he2eq

theorem foldl_mode_none (path : List PathItem) :
    path.foldl (fun acc p => acc.bind (fun m => pathItemMode m p)) none
      = none := by
  induction path with
  | nil => rfl
  | cons a l ih => simpa using ih

theorem pathItemMode_some {m : Nat} {a : PathItem}
    (ha : a ≠ PathItem.objlike) : ∃ m', pathItemMode m a = some m' := by
  cases a with
  | num j => cases j <;> exact ⟨_, rfl⟩
  | str s => exact ⟨_, rfl⟩
  | sym i => exact ⟨_, rfl⟩
  | nullish => exact ⟨_, rfl⟩
  | objlike => exact absurd rfl ha

theorem destructure_foldl_none_iff (path : List PathItem) :
    ∀ m : Nat,
      path.foldl (fun acc p => acc.bind (fun m => pathItemMode m p)) (some m)
          = none
        ↔ PathItem.objlike ∈ path := by
  induction path with
  | nil => intro m; simp
  | cons a l ih =>
      intro m
      by_cases ha : a = PathItem.objlike
      · subst ha
        rw [List.foldl_cons,
          show ((some m).bind fun m => pathItemMode m PathItem.objlike)
            = none from rfl]
        constructor
        · intro _; exact List.mem_cons_self _ _
        · intro _; exact foldl_mode_none l
      · rcases pathItemMode_some (m := m) ha with ⟨m', hm'⟩
        rw [List.foldl_cons,
          show ((some m).bind fun m => pathItemMode m a) = pathItemMode m a
            from rfl,
          hm', ih m', List.mem_cons]
        exact (or_iff_right (fun h => ha h.symm)).symm

theorem pathItemMode_zero {a : PathItem} (ha : a ≠ PathItem.objlike) :
    pathItemMode 0 a = some 0 := by
  cases a with
  | num j => cases j <;> rfl
  | str s => simp [pathItemMode]
  | sym i => rfl
  | nullish => rfl
  | objlike => exact absurd rfl ha

theorem foldl_mode_zero (path : List PathItem)
    (h : ∀ p ∈ path, p ≠ PathItem.objlike) :
    path.foldl (fun acc p => acc.bind (fun m => pathItemMode m p)) (some 0)
      = some 0 := by
  induction path with
  | nil => rfl
  | cons a l ih =>
      have ha : a ≠ PathItem.objlike := h a (List.mem_cons_self a l)
      rw [List.foldl_cons,
        show ((some 0).bind fun m => pathItemMode m a) = pathItemMode 0 a
          from rfl,
        pathItemMode_zero ha]
      exact ih (fun p hp => h p (List.mem_cons_of_mem a hp))

theorem pathItemMode_slow {m : Nat} {a : PathItem}
    (ha : a = PathItem.nullish ∨ isNonFiniteNum a = true) :
    pathItemMode m a = some 0 := by
  rcases ha with rfl | ha
  · rfl
  · cases a with
    | num j => cases j with
        | fin i => simp [isNonFiniteNum] at ha
        | nan => rfl
        | inf => rfl
        | negInf => rfl
    | str s => simp [isNonFiniteNum] at ha
    | sym i => simp [isNonFiniteNum] at ha
    | nullish => rfl
    | objlike => simp [isNonFiniteNum] at ha

theorem foldl_mode_slow (path : List PathItem) :
    ∀ m : Nat, (∀ p ∈ path, p ≠ PathItem.objlike) →
      (∃ p ∈ path, p = PathItem.nullish ∨ isNonFiniteNum p = true) →
      path.foldl (fun acc p => acc.bind (fun m => pathItemMode m p)) (some m)
        = some 0 := by
  induction path with
  | nil => intro m _ hex; simp at hex
  | cons a l ih =>
      intro m hval hex
      have ha : a ≠ PathItem.objlike := hval a (List.mem_cons_self a l)
      have hval' : ∀ p ∈ l, p ≠ PathItem.objlike :=
        fun p hp => hval p (List.mem_cons_of_mem a hp)
      by_cases haw : a = PathItem.nullish ∨ isNonFiniteNum a = true
      · rw [List.foldl_cons,
          show ((some m).bind fun mm => pathItemMode mm a) = pathItemMode m a
            from rfl,
          pathItemMode_slow haw]
        exact foldl_mode_zero l hval'
      · rcases pathItemMode_some (m := m) ha with ⟨m', hm'⟩
        rw [List.foldl_cons,
          show ((some m).bind fun mm => pathItemMode mm a) = pathItemMode m a
            from rfl,
          hm']
        refine ih m' hval' ?_
        rcases hex with ⟨p, hp, hw⟩
        rcases List.mem_cons.mp hp with rfl | hp'
        · exact absurd hw haw
        · exact ⟨p, hp', hw⟩

theorem alookup_aset {α : Type} (l : List (String × α)) (sig : String)
    (v : α) : alookup (aset l sig v) sig = some v := by
  induction l with
  | nil => simp [aset, alookup]
  | cons h t ih =>
      obtain ⟨k, w⟩ := h
      by_cases hk : k = sig
      · simp [aset, hk, alookup]
      · simp [aset, hk, alookup, ih]

theorem alookup_aerase {α : Type} (l : List (String × α)) (sig : String) :
    alookup (aerase l sig) sig = none := by
  induction l with
  | nil => rfl
  | cons h t ih =>
      obtain ⟨k, w⟩ := h
      by_cases hk : k = sig
      · simpa [aerase, hk] using ih
      · simpa [aerase, hk, alookup] using ih

theorem request_in_progress (s : CoalesceState) (sig : String) (cb : Nat)
    {pending : List Nat}
    (hc : alookup s.cache sig = none)
    (hm : alookup s.making sig = some pending) :
    request sig cb s
      = { s with making := aset s.making sig (pending ++ [cb]) } := by
  simp [request, hc, hm]

theorem registerAll_append (xs ys : List Nat) :
    ∀ acc, registerAll acc (xs ++ ys) =
      (registerAll acc xs).bind (fun a => registerAll a ys) := by
  induction xs with
  | nil => intro acc; rfl
  | cons x xs ih =>
      intro acc
      by_cases hx : x ∈ acc
      · simp [registerAll, hx]
      · simp [registerAll, hx, ih]

theorem registerAll_eq (ids : List Nat) :
    ∀ acc : List Nat,
      registerAll acc ids =
        if ids.Nodup ∧ ∀ x ∈ ids, x ∉ acc then some (acc ++ ids)
        else none := by
  induction ids with
  | nil => intro acc; simp [registerAll]
  | cons x ids ih =>
      intro acc
      by_cases hx : x ∈ acc
      · rw [show registerAll acc (x :: ids) = none from by
          simp [registerAll, hx]]
        rw [if_neg]
        rintro ⟨-, hni⟩
        exact hni x (List.mem_cons_self x ids) hx
      · rw [show registerAll acc (x :: ids) = registerAll (acc ++ [x]) ids
          from by simp [registerAll, hx]]
        rw [ih (acc ++ [x])]
        have hiff : (ids.Nodup ∧ ∀ y ∈ ids, y ∉ acc ++ [x])
            ↔ ((x :: ids).Nodup ∧ ∀ y ∈ x :: ids, y ∉ acc) := by
          constructor
          · rintro ⟨hnd, hni⟩
            refine ⟨List.nodup_cons.mpr
              ⟨fun hxi => hni x hxi (by simp), hnd⟩, ?_⟩
            intro y hy
            rcases List.mem_cons.mp hy with rfl | hy'
            · exact hx
            · intro hyacc
              exact hni y hy' (by simp [hyacc])
          · rintro ⟨hnd, hni⟩
            refine ⟨(List.nodup_cons.mp hnd).2, ?_⟩
            intro y hy hmem
            rcases List.mem_append.mp hmem with h1 | h1
            · exact hni y (List.mem_cons_of_mem x hy) h1
            · rw [List.mem_singleton] at h1
              subst h1
              exact (List.nodup_cons.mp hnd).1 hy
        have hval : acc ++ x :: ids = (acc ++ [x]) ++ ids := by simp
        rw [hval]
        exact if_congr hiff rfl rfl

theorem extractStepsList_none (bs : List BucketJ) :
    extractStepsList none bs = none := by
  induction bs with
  | nil => rfl
  | cons c cs ih =>
      have h1 : extractSteps none c = none := by
        cases c with
        | node i steps children => simp [extractSteps]
      simp only [extractStepsList, h1]
      exact ih

mutual

theorem extractSteps_eq (acc : List Nat) (b : BucketJ) :
    extractSteps (some acc) b = registerAll acc (allIdsB b) := by
  cases b with
  | node i steps children =>
      rw [show extractSteps (some acc) (BucketJ.node i steps children)
          = extractStepsList (registerAll acc (sortedStepIds steps)) children
          from by simp [extractSteps]]
      rw [show allIdsB (BucketJ.node i steps children)
          = sortedStepIds steps ++ allIdsL children from by simp [allIdsB]]
      rw [registerAll_append]
      cases hreg : registerAll acc (sortedStepIds steps) with
      | none => simpa using extractStepsList_none children
      | some a2 => simpa using extractStepsList_eq a2 children

theorem extractStepsList_eq (acc : List Nat) (bs : List BucketJ) :
    extractStepsList (some acc) bs = registerAll acc (allIdsL bs) := by
  cases bs with
  | nil => simp [extractStepsList, allIdsL, registerAll]
  | cons c cs =>
      rw [show extractStepsList (some acc) (c :: cs)
          = extractStepsList (extractSteps (some acc) c) cs from by
        simp [extractStepsList]]
      rw [show allIdsL (c :: cs) = allIdsB c ++ allIdsL cs from by
        simp [allIdsL]]
      rw [registerAll_append, extractSteps_eq acc c]
      cases hreg : registerAll acc (allIdsB c) with
      | none => simpa using extractStepsList_none cs
      | some a2 => simpa using extractStepsList_eq a2 cs

end

mutual

theorem allIdsB_flatten (b : BucketJ) :
    allIdsB b = ((bucketsB b).map bucketSortedIds).flatten := by
  cases b with
  | node i steps children =>
      rw [show allIdsB (BucketJ.node i steps children)
          = sortedStepIds steps ++ allIdsL children from by simp [allIdsB]]
      rw [show bucketsB (BucketJ.node i steps children)
          = BucketJ.node i steps children :: bucketsL children from by
        simp [bucketsB]]
      rw [List.map_cons, List.flatten_cons, allIdsL_flatten children]
      rfl

theorem allIdsL_flatten (bs : List BucketJ) :
    allIdsL bs = ((bucketsL bs).map bucketSortedIds).flatten := by
  cases bs with
  | nil => rfl
  | cons c cs =>
      rw [show allIdsL (c :: cs) = allIdsB c ++ allIdsL cs from by
        simp [allIdsL]]
      rw [show bucketsL (c :: cs) = bucketsB c ++ bucketsL cs from by
        simp [bucketsL]]
      rw [List.map_append, List.flatten_append, allIdsB_flatten c,
        allIdsL_flatten cs]

end

theorem two_le_sum_of_get (l : List Nat) :
    ∀ i j (hij : i < j) (hj : j < l.length),
      1 ≤ l.get ⟨i, Nat.lt_trans hij hj⟩ → 1 ≤ l.get ⟨j, hj⟩ →
      2 ≤ l.sum := by
  induction l with
  | nil => intro i j hij hj; simp at hj
  | cons x xs ih =>
      intro i j hij hj h1 h2
      cases i with
      | zero =>
          cases j with
          | zero => omega
          | succ j' =>
              have hj' : j' < xs.length := by simpa using hj
              have hx : 1 ≤ x := h1
              have hget : xs.get ⟨j', hj'⟩ ∈ xs := List.get_mem xs j' hj'
              have hsum : xs.get ⟨j', hj'⟩ ≤ xs.sum :=
                List.single_le_sum (fun y _ => Nat.zero_le y) _ hget
              have h2' : 1 ≤ xs.get ⟨j', hj'⟩ := h2
              simp only [List.sum_cons]
              omega
      | succ i' =>
          cases j with
          | zero => omega
          | succ j' =>
              have hij' : i' < j' := Nat.lt_of_succ_lt_succ hij
              have hj' : j' < xs.length := by simpa using hj
              have := ih i' j' hij' hj' h1 h2
              simp only [List.sum_cons]
              omega

theorem bucketStepIds_perm_sorted (b : BucketJ) :
    (bucketSortedIds b).Perm (bucketStepIds b) := by
  cases b with
  | node i steps children =>
      exact (List.perm_insertionSort stepOrder steps).map (fun s => s.id)

/-- Claim C1, counterexample to the claim as stated: the path `["a"]`
qualifies for the turbo tier, yet on an object whose field `a` is `null`,
with no fallback, the turbo accessor (the length-1 hand-optimized closure)
returns `null` while the slow generic walker returns `undefined`, because
the walker applies `current ?? fallback` even when the fallback is
`undefined`. -/
theorem turbo_slow_differ_on_null_without_fallback :
    destructureMode [PathItem.str "a"] = some 2 ∧
    turboCompiled [PathItem.str "a"] JValue.undefined
        (JValue.obj [(JKey.str "a", JValue.null)]) = JValue.null ∧
    slowlyExtractValueAtPath [PathItem.str "a"] JValue.undefined
        (JValue.obj [(JKey.str "a", JValue.null)]) = JValue.undefined ∧
    JValue.null ≠ JValue.undefined := by
  refine ⟨rfl, rfl, rfl, ?_⟩
  intro h
  exact JValue.noConfusion h

/-- Claim C1, amended: for every turbo-qualifying path and every value, the
turbo-compiled accessor (length 1, length 2, or the generated function — all
equal to `quicklyExtractValueAtPath` by `turboCompiled_eq_quickly`) agrees
with the slow generic walker whenever a fallback is provided; when no
fallback is given the two either agree or are both nullish (the turbo form
can return `null` where the walker normalizes to `undefined`). -/
theorem turbo_matches_slow_walker (path : List PathItem) (fb : JValue)
    (hq : destructureMode path = some 2) (v : JValue) :
    (isUndefined fb = false →
      turboCompiled path fb v = slowlyExtractValueAtPath path fb v) ∧
    (turboCompiled path fb v = slowlyExtractValueAtPath path fb v ∨
      (isNullish (turboCompiled path fb v) = true ∧
        isNullish (slowlyExtractValueAtPath path fb v) = true)) := by
  rw [turboCompiled_eq_quickly]
  exact ⟨fun hfb => quickly_eq_slow_of_fallback path hfb v,
    quickly_slow_nullish_agree path fb v⟩

theorem turbo_matches_slow_walker_witness :
    turboCompiled [PathItem.str "a", PathItem.str "b"] (JValue.num 7)
        (JValue.obj [(JKey.str "a", JValue.null)])
      = slowlyExtractValueAtPath [PathItem.str "a", PathItem.str "b"]
          (JValue.num 7) (JValue.obj [(JKey.str "a", JValue.null)]) :=
  (turbo_matches_slow_walker [PathItem.str "a", PathItem.str "b"]
    (JValue.num 7) rfl (JValue.obj [(JKey.str "a", JValue.null)])).1 rfl

/-- Claim C2, evaluation at the failing inputs: a six-segment path is
assigned the middle tier, and the middle-tier generated function
(`(_meta, value) => value[p0][p1]...`, plain indexing, no use of the
fallback) throws (`none`) on the empty object because the first missing key
yields `undefined` and the next index is on a nullish base; a symbol path of
length 1 is also middle tier and yields `undefined` on the empty object even
though a fallback of `42` was recorded. -/
theorem middle_tier_throws_and_ignores_fallback :
    constructDestructureFunction
        [PathItem.str "a", PathItem.str "b", PathItem.str "c",
          PathItem.str "d", PathItem.str "e", PathItem.str "f"]
        JValue.undefined
      = some (CompiledAccessor.middle
          [PathItem.str "a", PathItem.str "b", PathItem.str "c",
            PathItem.str "d", PathItem.str "e", PathItem.str "f"]
          JValue.undefined) ∧
    runAccessor
        (CompiledAccessor.middle
          [PathItem.str "a", PathItem.str "b", PathItem.str "c",
            PathItem.str "d", PathItem.str "e", PathItem.str "f"]
          JValue.undefined)
        (JValue.obj []) = none ∧
    constructDestructureFunction [PathItem.sym 0] (JValue.num 42)
      = some (CompiledAccessor.middle [PathItem.sym 0] (JValue.num 42)) ∧
    runAccessor (CompiledAccessor.middle [PathItem.sym 0] (JValue.num 42))
        (JValue.obj []) = some JValue.undefined :=
  ⟨rfl, rfl, rfl, rfl⟩

/-- Claim C3, counterexample to the claim as stated, in both failing parts.
Idempotence: fusing `access(access(access(base, [a]), [b]), [c])` once
yields `access(access(base, [a]), [b, c])`, and applying `optimize` to that
fused step fuses again instead of being a no-op, because its dependency is
still a fallback-free `AccessStep`.  Semantic equivalence: fusing two
turbo-tier three-key paths yields a six-key path that is compiled in the
middle tier, which throws (`none`) on the empty object where the unfused
pair returns `undefined`; and fusing a slow-tier path (`[NaN]`) with a
turbo-tier path (`["a"]`) turns the unfused pair's `null` into `undefined`,
because only the fused slow walker normalizes a final `null`. -/
theorem refusing_fused_step_fuses_again :
    (optimize (optimize (Step.access (Step.access (Step.access (Step.base 0)
        [PathItem.str "a"] JValue.undefined) [PathItem.str "b"]
        JValue.undefined) [PathItem.str "c"] JValue.undefined))
      ≠ optimize (Step.access (Step.access (Step.access (Step.base 0)
        [PathItem.str "a"] JValue.undefined) [PathItem.str "b"]
        JValue.undefined) [PathItem.str "c"] JValue.undefined))
    ∧ (compiledExtract [PathItem.str "a", PathItem.str "b", PathItem.str "c"]
          JValue.undefined (JValue.obj [])).bind
        (compiledExtract [PathItem.str "d", PathItem.str "e", PathItem.str "f"]
          JValue.undefined)
      = some JValue.undefined
    ∧ compiledExtract [PathItem.str "a", PathItem.str "b", PathItem.str "c",
          PathItem.str "d", PathItem.str "e", PathItem.str "f"]
        JValue.undefined (JValue.obj []) = none
    ∧ (compiledExtract [PathItem.num JSNum.nan] JValue.undefined
          (JValue.obj [(JKey.str "NaN",
            JValue.obj [(JKey.str "a", JValue.null)])])).bind
        (compiledExtract [PathItem.str "a"] JValue.undefined)
      = some JValue.null
    ∧ compiledExtract [PathItem.num JSNum.nan, PathItem.str "a"]
        JValue.undefined
        (JValue.obj [(JKey.str "NaN",
          JValue.obj [(JKey.str "a", JValue.null)])])
      = some JValue.undefined
    ∧ (some JValue.undefined : Option JValue) ≠ none
    ∧ (some JValue.null : Option JValue) ≠ some JValue.undefined := by
  refine ⟨?_, rfl, rfl, rfl, rfl, by simp, by simp⟩
  intro h
  rw [show optimize (Step.access (Step.access (Step.access (Step.base 0)
        [PathItem.str "a"] JValue.undefined) [PathItem.str "b"]
        JValue.undefined) [PathItem.str "c"] JValue.undefined)
      = Step.access (Step.access (Step.base 0) [PathItem.str "a"]
          JValue.undefined) [PathItem.str "b", PathItem.str "c"]
          JValue.undefined from rfl] at h
  rw [show optimize (Step.access (Step.access (Step.base 0)
        [PathItem.str "a"] JValue.undefined)
        [PathItem.str "b", PathItem.str "c"] JValue.undefined)
      = Step.access (Step.base 0)
          [PathItem.str "a", PathItem.str "b", PathItem.str "c"]
          JValue.undefined from rfl] at h
  simp at h

/-- Claim C3, amended: when a step's sole dependency is a fallback-free
`AccessStep`, `optimize` returns the single fused `AccessStep` on the
grandparent with the concatenated path and the child's fallback.  For the
semantics, whenever the parent path, the child path and the fused path each
select the slow or the turbo tier (never the middle tier, whose generated
code throws and drops the fallback, and with no construction error), the
fused accessor and the composition of the unfused pair's accessors both
return a value on every input, equal whenever a fallback is provided and
equal up to identifying `null` with `undefined` when no fallback is given.
Re-applying `optimize` to the fused step is a no-op provided the grandparent
is not itself a fallback-free `AccessStep` (otherwise fusion deliberately
continues, making repeated fusion transitive). -/
theorem access_fusion_spec (gdep : Step) (ppath path : List PathItem)
    (fb : JValue) :
    optimize (.access (.access gdep ppath .undefined) path fb)
      = .access gdep (ppath ++ path) fb
    ∧ (∀ v,
        (destructureMode ppath = some 0 ∨ destructureMode ppath = some 2) →
        (destructureMode path = some 0 ∨ destructureMode path = some 2) →
        (destructureMode (ppath ++ path) = some 0
          ∨ destructureMode (ppath ++ path) = some 2) →
        ∃ a b,
          (compiledExtract ppath JValue.undefined v).bind
              (compiledExtract path fb) = some a
          ∧ compiledExtract (ppath ++ path) fb v = some b
          ∧ (a = b ∨ (isNullish a = true ∧ isNullish b = true))
          ∧ (isUndefined fb = false → a = b))
    ∧ (isAccessNoFallback gdep = false →
        optimize (.access gdep (ppath ++ path) fb)
          = .access gdep (ppath ++ path) fb) := by
  refine ⟨rfl, ?_, ?_⟩
  · intro v h1 h2 hf
    exact fusion_semantics ppath path fb v h1 h2 hf
  · intro h
    cases gdep with
    | base i => rfl
    | access g2 p2 f2 =>
        simp only [isAccessNoFallback] at h
        simp [optimize, h]

theorem access_fusion_spec_witness :
    optimize (Step.access (Step.access (Step.base 0) [PathItem.str "a"]
        JValue.undefined) [PathItem.str "b"] (JValue.num 1))
      = Step.access (Step.base 0) [PathItem.str "a", PathItem.str "b"]
          (JValue.num 1) ∧
    (∃ a b,
        (compiledExtract [PathItem.str "a"] JValue.undefined
            (JValue.obj [])).bind
          (compiledExtract [PathItem.str "b"] (JValue.num 1)) = some a
        ∧ compiledExtract [PathItem.str "a", PathItem.str "b"] (JValue.num 1)
            (JValue.obj []) = some b
        ∧ (a = b ∨ (isNullish a = true ∧ isNullish b = true))
        ∧ (isUndefined (JValue.num 1) = false → a = b)) ∧
    optimize (Step.access (Step.base 0)
        [PathItem.str "a", PathItem.str "b"] (JValue.num 1))
      = Step.access (Step.base 0) [PathItem.str "a", PathItem.str "b"]
          (JValue.num 1) :=
  ⟨(access_fusion_spec (Step.base 0) [PathItem.str "a"] [PathItem.str "b"]
      (JValue.num 1)).1,
    (access_fusion_spec (Step.base 0) [PathItem.str "a"] [PathItem.str "b"]
      (JValue.num 1)).2.1 (JValue.obj []) (Or.inr rfl) (Or.inr rfl)
      (Or.inr rfl),
    (access_fusion_spec (Step.base 0) [PathItem.str "a"] [PathItem.str "b"]
      (JValue.num 1)).2.2 rfl⟩

/-- Claim C4, evaluation at the failing input: the path `["a|b"]` contains
the reserved separator, yet the tier-selection loop keeps it in the turbo
tier, because the source tests `t.includes("|")` on the `typeof` result
(the constant string `"string"`) instead of on the segment — contradicting
the adjacent comment about signature ambiguity; the resulting turbo
signature indeed collides with the one for `["a", "b"]`.  The symbol half of
the claim does hold: a symbol segment is demoted to the middle tier. -/
theorem separator_string_stays_turbo :
    constructDestructureFunction [PathItem.str "a|b"] JValue.undefined
      = some (CompiledAccessor.turbo [PathItem.str "a|b"] JValue.undefined) ∧
    turboSignature [PathItem.str "a|b"]
      = turboSignature [PathItem.str "a", PathItem.str "b"] ∧
    constructDestructureFunction [PathItem.sym 0] JValue.undefined
      = some (CompiledAccessor.middle [PathItem.sym 0] JValue.undefined) :=
  ⟨rfl, rfl, rfl⟩

/-- Claim C5, counterexample to the claim as stated: `deduplicate` returns a
peer whose dependency differs from the step's own dependency (it never
consults the dependency), and it also returns a peer whose path is a
different symbol, because `JSON.stringify` renders every symbol segment as
`null`. -/
theorem deduplicate_ignores_dependency :
    deduplicate (Step.access (Step.base 0) [PathItem.str "a"]
        JValue.undefined)
        [Step.access (Step.base 1) [PathItem.str "a"] JValue.undefined]
      = [Step.access (Step.base 1) [PathItem.str "a"] JValue.undefined] ∧
    Step.base 1 ≠ Step.base 0 ∧
    deduplicate (Step.access (Step.base 0) [PathItem.sym 0] JValue.undefined)
        [Step.access (Step.base 0) [PathItem.sym 1] JValue.undefined]
      = [Step.access (Step.base 0) [PathItem.sym 1] JValue.undefined] ∧
    PathItem.sym 1 ≠ PathItem.sym 0 := by
  refine ⟨?_, by simp, ?_, by simp⟩
  · simp [deduplicate, jsStrictEq, jsonStringifyPath]
  · simp [deduplicate, jsStrictEq, jsonStringifyPath, jsonItemString]

/-- Claim C5, amended: `deduplicate` returns exactly the peers whose
fallback is strictly equal to the step's fallback and whose path has the
same `JSON.stringify` serialization as the step's path; the dependency is
not compared (the planner supplies only peers sharing the dependency), and
paths differing only in symbol segments are identified because symbols
serialize as `null`. -/
theorem deduplicate_characterization (dep : Step) (path : List PathItem)
    (fb : JValue) (peers : List Step) (p : Step) :
    p ∈ deduplicate (.access dep path fb) peers ↔
      (p ∈ peers ∧ ∃ pdep ppath pfb, p = .access pdep ppath pfb ∧
        jsStrictEq pfb fb = true ∧
        jsonStringifyPath ppath = jsonStringifyPath path) := by
  simp only [deduplicate, List.mem_filter]
  constructor
  · rintro ⟨hmem, hpred⟩
    refine ⟨hmem, ?_⟩
    cases p with
    | base i => simp at hpred
    | access pdep ppath pfb =>
        simp only [Bool.and_eq_true, beq_iff_eq] at hpred
        exact ⟨pdep, ppath, pfb, rfl, hpred.1, hpred.2⟩
  · rintro ⟨hmem, pdep, ppath, pfb, rfl, h1, h2⟩
    exact ⟨hmem, by simp [h1, h2]⟩

theorem deduplicate_characterization_witness :
    Step.access (Step.base 2) [PathItem.str "a"] JValue.undefined
      ∈ deduplicate (Step.access (Step.base 0) [PathItem.str "a"]
          JValue.undefined)
          [Step.access (Step.base 2) [PathItem.str "a"] JValue.undefined] :=
  (deduplicate_characterization (Step.base 0) [PathItem.str "a"]
      JValue.undefined
      [Step.access (Step.base 2) [PathItem.str "a"] JValue.undefined]
      (Step.access (Step.base 2) [PathItem.str "a"] JValue.undefined)).mpr
    ⟨by simp, Step.base 2, [PathItem.str "a"], JValue.undefined, rfl,
      by simp [jsStrictEq], rfl⟩

/-- Claim C6: `constructDestructureFunction` raises its construction error
(`none`) exactly when some segment is of an invalid runtime type (not a
string, number, symbol, or nullish value); and when every segment is valid
but some segment is nullish or a non-finite number, the slow tier is chosen
without error. -/
theorem construction_error_characterization (path : List PathItem)
    (fb : JValue) :
    (constructDestructureFunction path fb = none
      ↔ PathItem.objlike ∈ path)
    ∧ ((∀ p ∈ path, p ≠ PathItem.objlike) →
        (∃ p ∈ path, p = PathItem.nullish ∨ isNonFiniteNum p = true) →
        constructDestructureFunction path fb
          = some (CompiledAccessor.slow path fb)) := by
  constructor
  · simp only [constructDestructureFunction, Option.map_eq_none',
      destructureMode]
    exact destructure_foldl_none_iff path _
  · intro hval hex
    simp only [constructDestructureFunction, destructureMode]
    rw [foldl_mode_slow path _ hval hex]
    rfl

theorem construction_error_characterization_witness :
    constructDestructureFunction [PathItem.nullish] JValue.undefined
      = some (CompiledAccessor.slow [PathItem.nullish] JValue.undefined) ∧
    constructDestructureFunction [PathItem.objlike] JValue.undefined
      = none :=
  ⟨(construction_error_characterization [PathItem.nullish]
        JValue.undefined).2
      (by decide) ⟨PathItem.nullish, by simp, Or.inl rfl⟩,
    (construction_error_characterization [PathItem.objlike]
        JValue.undefined).1.mpr (by simp)⟩

/-- Claim C7: while a compilation for a signature is in progress (it has a
pending-callback list and no cache entry), every further request for that
signature is appended to the pending list in order and never starts another
compilation (the `started` log and the cache are unchanged); when the single
compilation completes, the function is cached under the signature, the
pending list is dropped, and every pending callback is invoked with the
compiled function. -/
theorem compilation_coalescing (s : CoalesceState) (sig : String)
    (cbs : List Nat) (pending : List Nat) (fn : Nat)
    (hc : alookup s.cache sig = none)
    (hm : alookup s.making sig = some pending) :
    ((requestAll sig cbs s).started = s.started
      ∧ alookup (requestAll sig cbs s).making sig = some (pending ++ cbs)
      ∧ (requestAll sig cbs s).cache = s.cache)
    ∧ (alookup (complete sig fn s).cache sig = some fn
      ∧ alookup (complete sig fn s).making sig = none
      ∧ (complete sig fn s).delivered
          = s.delivered ++ pending.map (fun cb => (cb, fn))) := by
  constructor
  · induction cbs generalizing s pending with
    | nil => exact ⟨rfl, by simpa using hm, rfl⟩
    | cons cb rest ih =>
        have hstep := request_in_progress s sig cb hc hm
        have hres : requestAll sig (cb :: rest) s
            = requestAll sig rest (request sig cb s) := rfl
        rw [hres, hstep]
        have h1 := ih { s with making := aset s.making sig (pending ++ [cb]) }
          (pending ++ [cb]) hc
          (by simpa using alookup_aset s.making sig (pending ++ [cb]))
        simpa [List.append_assoc] using h1
  · refine ⟨?_, ?_, ?_⟩ <;> simp only [complete, hm]
    · exact alookup_aset s.cache sig fn
    · exact alookup_aerase s.making sig

theorem compilation_coalescing_witness :
    (requestAll "n6" [2, 3]
        (CoalesceState.mk [] [("n6", [1])] ["n6"] [])).started = ["n6"] ∧
    alookup (requestAll "n6" [2, 3]
        (CoalesceState.mk [] [("n6", [1])] ["n6"] [])).making "n6"
      = some [1, 2, 3] ∧
    alookup (complete "n6" 9
        (CoalesceState.mk [] [("n6", [1])] ["n6"] [])).cache "n6" = some 9 ∧
    (complete "n6" 9
        (CoalesceState.mk [] [("n6", [1])] ["n6"] [])).delivered
      = [(1, 9)] := by
  have h := compilation_coalescing
    (CoalesceState.mk [] [("n6", [1])] ["n6"] []) "n6" [2, 3] [1] 9 rfl rfl
  exact ⟨h.1.1, h.1.2.1, h.2.1, h.2.2.2⟩

/-- Claim C8: the middle-tier cache signature is derived only from the
presence of a fallback and the path length, so any two middle-tier paths of
equal length with the same fallback-presence share a signature (hence a
cache slot); the generated factory receives the path segments as call-time
arguments (`fn(...path)`), producing the path-specific extraction even
though the compiled source depends only on the length; and a request whose
signature is already cached is answered from the cache without starting any
compilation. -/
theorem middle_cache_key_spec (p1 p2 : List PathItem) (fb1 fb2 : JValue)
    (hlen : p1.length = p2.length)
    (hfbp : isUndefined fb1 = isUndefined fb2) :
    middleSignature p1 fb1 = middleSignature p2 fb2
    ∧ (∀ (path : List PathItem) (v : JValue),
        middleFactory path.length path v = middleExtract path v)
    ∧ (∀ (s : CoalesceState) (cb fn : Nat),
        alookup s.cache (middleSignature p1 fb1) = some fn →
        (request (middleSignature p1 fb1) cb s).started = s.started ∧
        (request (middleSignature p1 fb1) cb s).delivered
          = s.delivered ++ [(cb, fn)] ∧
        (request (middleSignature p1 fb1) cb s).making = s.making) := by
  refine ⟨?_, ?_, ?_⟩
  · simp [middleSignature, hlen, hfbp]
  · intro path v
    simp [middleFactory, List.take_length]
  · intro s cb fn hcache
    simp [request, hcache]

theorem middle_cache_key_spec_witness :
    middleSignature [PathItem.str "a", PathItem.str "b", PathItem.str "c",
        PathItem.str "d", PathItem.str "e", PathItem.str "f"]
        JValue.undefined
      = middleSignature [PathItem.str "u", PathItem.str "v",
          PathItem.str "w", PathItem.str "x", PathItem.str "y",
          PathItem.str "z"] JValue.undefined :=
  (middle_cache_key_spec
    [PathItem.str "a", PathItem.str "b", PathItem.str "c", PathItem.str "d",
      PathItem.str "e", PathItem.str "f"]
    [PathItem.str "u", PathItem.str "v", PathItem.str "w", PathItem.str "x",
      PathItem.str "y", PathItem.str "z"]
    JValue.undefined JValue.undefined rfl rfl).1

/-- Claim C9: if some step id occurs in the step sets of two distinct
buckets of the plan (two distinct positions of the preorder bucket list),
the `extractSteps` traversal of `planToMermaid` raises the duplicate-step
error (`none`); if the bucket step sets partition the steps (the collected
ids are duplicate-free), the traversal succeeds and registers each step
exactly once, in traversal order; and the collected ids are exactly the ids
occurring in some bucket. -/
theorem plan_duplicate_step_check (t : BucketJ) :
    (∀ i j, ∀ (hij : i < j) (hj : j < (bucketsB t).length) (id : Nat),
        id ∈ bucketStepIds ((bucketsB t).get ⟨i, Nat.lt_trans hij hj⟩) →
        id ∈ bucketStepIds ((bucketsB t).get ⟨j, hj⟩) →
        extractPlan t = none)
    ∧ ((allIdsB t).Nodup → extractPlan t = some (allIdsB t))
    ∧ (∀ id : Nat, id ∈ allIdsB t ↔
        ∃ b ∈ bucketsB t, id ∈ bucketStepIds b) := by
  have hplan : extractPlan t = registerAll [] (allIdsB t) :=
    extractSteps_eq [] t
  have hreg : registerAll [] (allIdsB t)
      = if (allIdsB t).Nodup ∧ ∀ x ∈ allIdsB t, x ∉ ([] : List Nat)
        then some ([] ++ allIdsB t) else none := registerAll_eq (allIdsB t) []
  refine ⟨?_, ?_, ?_⟩
  · intro i j hij hj id hmi hmj
    have hnd : ¬ (allIdsB t).Nodup := by
      intro hnodup
      have hcount : (allIdsB t).count id ≤ 1 :=
        List.nodup_iff_count_le_one.mp hnodup id
      have hflat : allIdsB t = ((bucketsB t).map bucketSortedIds).flatten :=
        allIdsB_flatten t
      set L := (bucketsB t).map bucketSortedIds with hL
      have hcf : (allIdsB t).count id = (L.map (List.count id)).sum := by
        rw [hflat]
        exact List.count_flatten id L
      have hleni : i < (L.map (List.count id)).length := by
        simp only [hL, List.length_map]
        exact Nat.lt_trans hij hj
      have hlenj : j < (L.map (List.count id)).length := by
        simp only [hL, List.length_map]
        exact hj
      have hgi : (L.map (List.count id)).get ⟨i, hleni⟩
          = List.count id
              (bucketSortedIds ((bucketsB t).get ⟨i, Nat.lt_trans hij hj⟩)) := by
        simp [hL, List.getElem_map]
      have hgj : (L.map (List.count id)).get ⟨j, hlenj⟩
          = List.count id (bucketSortedIds ((bucketsB t).get ⟨j, hj⟩)) := by
        simp [hL, List.getElem_map]
      have hmi' : id ∈ bucketSortedIds
          ((bucketsB t).get ⟨i, Nat.lt_trans hij hj⟩) :=
        (bucketStepIds_perm_sorted _).mem_iff.mpr hmi
      have hmj' : id ∈ bucketSortedIds ((bucketsB t).get ⟨j, hj⟩) :=
        (bucketStepIds_perm_sorted _).mem_iff.mpr hmj
      have h1 : 1 ≤ (L.map (List.count id)).get ⟨i, hleni⟩ := by
        rw [hgi]
        exact List.count_pos_iff.mpr hmi'
      have h2 : 1 ≤ (L.map (List.count id)).get ⟨j, hlenj⟩ := by
        rw [hgj]
        exact List.count_pos_iff.mpr hmj'
      have h2sum := two_le_sum_of_get (L.map (List.count id)) i j hij hlenj
        h1 h2
      omega
    rw [hplan, hreg, if_neg]
    rintro ⟨h, -⟩
    exact hnd h
  · intro hnodup
    rw [hplan, hreg,
      if_pos ⟨hnodup, fun x _ hx => (List.not_mem_nil x) hx⟩]
    rw [List.nil_append]
  · intro id
    rw [allIdsB_flatten t]
    rw [List.mem_flatten]
    constructor
    · rintro ⟨l, hl, hid⟩
      rcases List.mem_map.mp hl with ⟨b, hb, rfl⟩
      exact ⟨b, hb, (bucketStepIds_perm_sorted b).mem_iff.mp hid⟩
    · rintro ⟨b, hb, hid⟩
      exact ⟨bucketSortedIds b, List.mem_map.mpr ⟨b, hb, rfl⟩,
        (bucketStepIds_perm_sorted b).mem_iff.mpr hid⟩

theorem plan_duplicate_step_check_witness :
    extractPlan (BucketJ.node 0 [StepJ.mk 1 []]
        [BucketJ.node 1 [StepJ.mk 2 [1]] []])
      = some (allIdsB (BucketJ.node 0 [StepJ.mk 1 []]
          [BucketJ.node 1 [StepJ.mk 2 [1]] []])) ∧
    extractPlan (BucketJ.node 0 [StepJ.mk 1 []]
        [BucketJ.node 1 [StepJ.mk 1 [1]] []]) = none :=
  ⟨(plan_duplicate_step_check (BucketJ.node 0 [StepJ.mk 1 []]
        [BucketJ.node 1 [StepJ.mk 2 [1]] []])).2.1 (by decide),
    (plan_duplicate_step_check (BucketJ.node 0 [StepJ.mk 1 []]
        [BucketJ.node 1 [StepJ.mk 1 [1]] []])).1 0 1 (by decide) (by decide)
      1 (by decide) (by decide)⟩

/-- Claim C10: `get` accepts exactly string keys, `at` accepts exactly
number indices (throwing, modelled by `none`, for every other segment
type), and both return a new `AccessStep` that depends on the original
step's own dependency (not on the step itself), appends the key or index
to the path, and carries no fallback regardless of the original step's
fallback. -/
theorem get_at_spec (dep : Step) (path : List PathItem) (fb : JValue) :
    (∀ s, Step.get (.access dep path fb) (.str s)
        = some (.access dep (path ++ [.str s]) JValue.undefined))
    ∧ (∀ k, (∀ s, k ≠ PathItem.str s) →
        Step.get (.access dep path fb) k = none)
    ∧ (∀ j, Step.atIndex (.access dep path fb) (.num j)
        = some (.access dep (path ++ [.num j]) JValue.undefined))
    ∧ (∀ k, (∀ j, k ≠ PathItem.num j) →
        Step.atIndex (.access dep path fb) k = none) := by
  refine ⟨fun s => rfl, ?_, fun j => rfl, ?_⟩
  · intro k hk
    cases k with
    | str s => exact absurd rfl (hk s)
    | num j => rfl
    | sym i => rfl
    | nullish => rfl
    | objlike => rfl
  · intro k hk
    cases k with
    | num j => exact absurd rfl (hk j)
    | str s => rfl
    | sym i => rfl
    | nullish => rfl
    | objlike => rfl

theorem get_at_spec_witness :
    Step.get (Step.access (Step.base 0) [PathItem.str "a"] (JValue.num 5))
        (PathItem.str "b")
      = some (Step.access (Step.base 0)
          [PathItem.str "a", PathItem.str "b"] JValue.undefined) ∧
    Step.get (Step.access (Step.base 0) [PathItem.str "a"] (JValue.num 5))
        (PathItem.num (JSNum.fin 3)) = none :=
  ⟨(get_at_spec (Step.base 0) [PathItem.str "a"] (JValue.num 5)).1 "b",
    (get_at_spec (Step.base 0) [PathItem.str "a"] (JValue.num 5)).2.1
      (PathItem.num (JSNum.fin 3)) (fun s h => PathItem.noConfusion h)⟩

end Crystal
